import Mathlib

/-!
Shallow embedding of the two scripts of this repository,
`src/streamlit_app.py` and `src/data_reformatter_app.py`.

Strings are Lean `String`s; Python `str.lower()` is `pyLower`;
Python lists of column names are `List String`; a pandas `DataFrame` is
modelled as an ordered association list from column name to the column's
row data (`Df` below), with the row cells kept abstract where the code
only moves them around.  Python dictionaries keyed by strings are
association lists (`List (String × String)`), with assignment-overwrites
modelled by `dictInsert` and `KeyError`-raising indexing by `dictGet`
returning `Except`.  Fallible pandas operations (`df[name]` on a missing
column, `df[order]` with an unknown label) return `Except String`, the
error value naming the offending key, which models the raised `KeyError`.
-/

set_option autoImplicit false

/-- Python `str.lower()` on the ASCII strings these scripts handle:
lower-case every character.  (The library's own String lower-casing is
defined by well-founded recursion over byte positions and does not
reduce in the kernel, so the embedding maps `Char.toLower` over the
character list, which is the same function on these inputs.) -/
def pyLower (s : String) : String := String.mk (s.data.map Char.toLower)

/-- Python `str.split(sep)` for a single-character separator, on the
character list of the string.  Always returns a nonempty list; the last
element is the text after the last separator (the whole input when the
separator does not occur). -/
def splitCh (sep : Char) : List Char → List (List Char)
  | [] => [[]]
  | c :: rest =>
      if c = sep then [] :: splitCh sep rest
      else
        match splitCh sep rest with
        | [] => [[c]]
        | h :: t => (c :: h) :: t

/-- Embeds `is_valid_file_extension` (streamlit_app.py lines 9-14):
`file_extension = '.' + file_path.split('.')[-1]` followed by
`file_extension.lower() in valid_extensions`.  The `[-1]` index is safe
because `split` never returns an empty list; `getLastD` reflects that. -/
def is_valid_file_extension (file_path : String) (valid_extensions : List String) : Bool :=
  let file_extension : String := "." ++ String.mk ((splitCh '.' file_path.data).getLastD [])
  decide (pyLower file_extension ∈ valid_extensions)

/-- Embeds `has_valid_column_names` (streamlit_app.py lines 17-41).  The
DataFrame argument is replaced by its column-name list
(`df.columns.to_list()`), the only part of the frame the function reads.
The inner `for column in columns ... break` loop is the existence check
`columns.any`; the `break` only short-circuits and does not change the
resulting boolean. -/
def has_valid_column_names (df_columns : List String) (required_columns_list_of_lists : List (List String)) : Bool :=
  let columns := df_columns.map pyLower
  if columns.length < required_columns_list_of_lists.length then
    false
  else
    let success_bool_list := required_columns_list_of_lists.map
      (fun possible_column_names => columns.any (fun column => decide (column ∈ possible_column_names)))
    success_bool_list.all id

/-- The permitted upload extensions set in `main` (streamlit_app.py line 133). -/
def permitted_extensions : List String := [".linear", ".logistic", ".assoc", ".qassoc", ".gwas"]

/-- The fixed four-field schema set in `main` (streamlit_app.py lines 134-137). -/
def required_columns : List (List String) :=
  [["chr", "chromosome"],
   ["bp", "pos", "position"],
   ["snp", "rs", "rsid", "rsnum", "id", "marker", "markername"],
   ["p", "pval", "p-value", "pvalue", "p.value"]]

/-- The canonical field names iterated over in `main` (streamlit_app.py line 163). -/
def default_names : List String := ["chr", "bp", "snp", "p"]

/-- Key lookup in a string-keyed association list: the value of the first
entry with the given key.  (Python dicts have unique keys; the inserts
below preserve that, so first-entry lookup is dict lookup.) -/
def alookup {β : Type} (k : String) : List (String × β) → Option β
  | [] => none
  | (k', v) :: rest => if k' = k then some v else alookup k rest

/-- Python dict assignment `d[k] = v` on an association list: overwrite
the entry in place when the key is present, otherwise append the new
entry at the end (Python dicts preserve insertion order).  The same
operation models pandas column assignment, so it is polymorphic in the
value type. -/
def dictInsert {β : Type} (m : List (String × β)) (k : String) (v : β) : List (String × β) :=
  if k ∈ m.map Prod.fst then
    m.map (fun p => if p.1 = k then (k, v) else p)
  else
    m ++ [(k, v)]

/-- Python dict indexing `m[k]`: `KeyError k` when the key is absent. -/
def dictGet (m : List (String × String)) (k : String) : Except String String :=
  match alookup k m with
  | some v => Except.ok v
  | none => Except.error k

/-- The inner loop of the name-map construction in `main` (streamlit_app.py
lines 164-166): for every column of the frame, in original order, whose
lower-cased name is among `possible`, assign
`column_name_map[default_name] = column`.  There is no `break`, so a later
matching column overwrites an earlier one. -/
def assignMatches (m : List (String × String)) (default_name : String) (possible : List String) (cols : List String) : List (String × String) :=
  cols.foldl (fun acc column => if (pyLower column) ∈ possible then dictInsert acc default_name column else acc) m

/-- The name-map construction in `main` (streamlit_app.py lines 161-166):
`for i, default_name in enumerate(['chr','bp','snp','p'])` indexing
`required_columns[i]` is the fold over `default_names.zip required_columns`,
starting from the empty dict. -/
def buildColumnNameMap (cols : List String) : List (String × String) :=
  (default_names.zip required_columns).foldl (fun m pr => assignMatches m pr.1 pr.2 cols) []

/-- A pandas DataFrame, as far as these scripts observe it: an ordered
association list from column name to that column's row data. -/
abbrev Df (α : Type) : Type := List (String × List α)

/-- The column-name list of a frame (`df.columns.to_list()`). -/
def headers {α : Type} (df : Df α) : List String := df.map Prod.fst

/-- pandas column read `df[name]`: `KeyError name` when the column is absent. -/
def getCol {α : Type} (df : Df α) (name : String) : Except String (List α) :=
  match alookup name df with
  | some vals => Except.ok vals
  | none => Except.error name

/-- pandas column assignment `df[name] = vals`: overwrite the column in
place when present, otherwise append it as the new last column — the same
overwrite-or-append operation as a Python dict assignment. -/
def setCol {α : Type} (df : Df α) (name : String) (vals : List α) : Df α :=
  dictInsert df name vals

/-- Embeds `get_dbsnp_link` (streamlit_app.py lines 111-118): pure string
formatting of the fixed dbSNP URL template. -/
def get_dbsnp_link (chromosome : String) (position : Int) : String :=
  "https://www.ncbi.nlm.nih.gov/snp/?term=" ++ chromosome ++ "%5BChromosome%5D+AND+" ++
    toString position ++ "%5Bchrpos%5D"

/-- The dbSNP-column step of `main` (streamlit_app.py lines 168-170):
`df['dbSNP'] = df.apply(lambda row: get_dbsnp_link(row[map['chr']], row[map['bp']]), axis=1)`.
The per-row link constructor is kept abstract as `link`; the step first
indexes the name map at `'chr'` and `'bp'` (a `KeyError` when absent),
reads those columns, and appends the computed `dbSNP` column. -/
def addDbSNPColumn {α : Type} (link : α → α → α) (df : Df α) (m : List (String × String)) : Except String (Df α) := do
  let chr_name ← dictGet m "chr"
  let bp_name ← dictGet m "bp"
  let chr_vals ← getCol df chr_name
  let bp_vals ← getCol df bp_name
  Except.ok (setCol df "dbSNP" (List.zipWith link chr_vals bp_vals))

/-- Embeds the frame-visible behaviour of `plotly_plot_genome_position_v_pval`
(streamlit_app.py lines 67-108).  Line 77 reads `df[map['p']]` and assigns
the new `'-log10(p)'` column; the per-cell numeric map is kept abstract as
`negLog10`.  The two tab bodies then read `df[map['bp']]`, `df['-log10(p)']`,
`df[map['snp']]` and `df[map['p']]` (tab2 repeats reads of the same columns,
which cannot fail once tab1's reads succeeded).  The mutated frame is
returned to make the in-place update of the caller's `df` observable. -/
def plotly_plot_genome_position_v_pval {α : Type} (negLog10 : α → α) (df : Df α) (m : List (String × String)) : Except String (Df α) := do
  let p_name ← dictGet m "p"
  let p_vals ← getCol df p_name
  let df1 := setCol df "-log10(p)" (p_vals.map negLog10)
  let bp_name ← dictGet m "bp"
  let _ ← getCol df1 bp_name
  let _ ← getCol df1 "-log10(p)"
  let snp_name ← dictGet m "snp"
  let _ ← getCol df1 snp_name
  let _ ← getCol df1 p_name
  Except.ok df1

/-- The body of `main` after the uploaded file has been read into `df`
(streamlit_app.py lines 154-172).  The validation result only selects
which message is displayed (line 156-159); the name map is then built and
the dbSNP and plotting steps run unconditionally, whatever the validation
said.  Returns the displayed validity flag paired with the outcome of the
derived computation (`Except.error k` models an uncaught `KeyError k`). -/
def mainAfterRead {α : Type} (link : α → α → α) (negLog10 : α → α) (df : Df α) : Bool × Except String (Df α) :=
  let valid := has_valid_column_names (headers df) required_columns
  let m := buildColumnNameMap (headers df)
  (valid, do
    let df1 ← addDbSNPColumn link df m
    plotly_plot_genome_position_v_pval negLog10 df1 m)

/-- Embeds `edit_df_columns` (data_reformatter_app.py lines 9-16):
`df.columns = column_names` renames the columns positionally (pandas
raises when the lengths differ), and `df = df[column_order]` then selects
columns by their NEW names, in the order given.  pandas label selection
returns EVERY column bearing the requested label, in original column
order — a duplicated new name yields several columns for that single
order entry — and raises `KeyError` on a label no column bears. -/
def edit_df_columns {α : Type} (df : Df α) (column_names : List String) (column_order : List String) : Except String (Df α) :=
  if column_names.length = df.length then do
    let renamed : Df α := column_names.zip (df.map Prod.snd)
    let selected ← column_order.mapM (fun n =>
      match renamed.filter (fun p => decide (p.1 = n)) with
      | [] => (Except.error n : Except String (Df α))
      | cols => Except.ok cols)
    Except.ok selected.flatten
  else
    Except.error "column length mismatch"

/-- Written from the spec's words, for comparison with
`has_valid_column_names`: every FieldSpec has at least one alias present,
case-insensitively, among the table's column names. -/
def fieldsSatisfied (cols : List String) (schema : List (List String)) : Bool :=
  schema.all (fun possible => cols.any (fun c => decide ((pyLower c) ∈ possible)))

/-- Written from the spec's words: `e` is the substring of `l` after the
last `'.'` (the whole of `l` when `l` has no dot). -/
def IsAfterLastDot (l e : List Char) : Prop :=
  '.' ∉ e ∧ (('.' ∉ l ∧ e = l) ∨ ∃ pre, l = pre ++ '.' :: e)

/-- The value held by an overwrite-on-match scan: the last element of
`cols` whose lower-cased name is in `possible`, or `acc` when none matches. -/
def lastMatchFrom (possible : List String) (cols : List String) (acc : Option String) : Option String :=
  cols.foldl (fun a column => if (pyLower column) ∈ possible then some column else a) acc

theorem splitCh_ne_nil (sep : Char) (l : List Char) : splitCh sep l ≠ [] := by
  cases l with
  | nil => simp [splitCh]
  | cons c rest =>
      by_cases hc : c = sep
      · simp [splitCh, hc]
      · cases h : splitCh sep rest <;> simp [splitCh, hc, h]

theorem splitCh_length (sep : Char) (l : List Char) :
    (splitCh sep l).length = l.count sep + 1 := by
  induction l with
  | nil => simp [splitCh, List.count_nil]
  | cons c rest ih =>
      by_cases hc : c = sep
      · simp [splitCh, hc, List.count_cons, ih]
      · cases h : splitCh sep rest with
        | nil => exact absurd h (splitCh_ne_nil sep rest)
        | cons hd tl =>
            rw [h] at ih
            simp only [splitCh, if_neg hc, h, List.length_cons] at *
            have : (c == sep) = false := by simp [hc]
            simp [List.count_cons, this, ih]

theorem getLastD_default_irrel {α : Type} (l : List α) (h : l ≠ []) (d₁ d₂ : α) :
    l.getLastD d₁ = l.getLastD d₂ := by
  obtain ⟨x, hx⟩ := Option.isSome_iff_exists.mp (List.getLast?_isSome.mpr h)
  rw [List.getLastD_eq_getLast?, List.getLastD_eq_getLast?, hx]
  rfl

theorem splitCh_no_sep (sep : Char) (l : List Char) (h : sep ∉ l) : splitCh sep l = [l] := by
  induction l with
  | nil => rfl
  | cons c rest ih =>
      have hc : ¬(c = sep) := fun hcc => h (hcc ▸ List.mem_cons_self c rest)
      have hr : sep ∉ rest := fun hm => h (List.mem_cons_of_mem c hm)
      rw [splitCh, if_neg hc, ih hr]

theorem isAfterLastDot_splitCh (l : List Char) :
    IsAfterLastDot l ((splitCh '.' l).getLastD []) := by
  induction l with
  | nil => exact ⟨by decide, Or.inl ⟨by decide, by decide⟩⟩
  | cons c rest ih =>
      by_cases hc : c = '.'
      · have hlast : (splitCh '.' (c :: rest)).getLastD [] = (splitCh '.' rest).getLastD [] := by
          rw [splitCh, if_pos hc, List.getLastD_cons]
        rw [hlast]
        set E := (splitCh '.' rest).getLastD [] with hE
        obtain ⟨hnd, hca⟩ := ih
        refine ⟨hnd, Or.inr ?_⟩
        rcases hca with ⟨hnr, he⟩ | ⟨pre, hpre⟩
        · exact ⟨[], by rw [List.nil_append, he, hc]⟩
        · exact ⟨c :: pre, by rw [List.cons_append, ← hpre]⟩
      · cases h : splitCh '.' rest with
        | nil => exact absurd h (splitCh_ne_nil '.' rest)
        | cons hd tl =>
            cases tl with
            | nil =>
                have hcount : rest.count '.' = 0 := by
                  have := splitCh_length '.' rest
                  rw [h] at this
                  simpa using this
                have hnr : '.' ∉ rest := List.count_eq_zero.mp hcount
                have hhd : hd = rest := by
                  have := splitCh_no_sep '.' rest hnr
                  rw [h] at this
                  simpa using this
                have hlast : (splitCh '.' (c :: rest)).getLastD [] = c :: rest := by
                  rw [splitCh, if_neg hc, h, hhd]
                  rfl
                rw [hlast]
                have hcc : ¬('.' = c) := fun hcc => hc hcc.symm
                have hmem : '.' ∉ c :: rest := by
                  intro hx
                  rcases List.mem_cons.mp hx with hx | hx
                  · exact hcc hx
                  · exact hnr hx
                exact ⟨hmem, Or.inl ⟨hmem, rfl⟩⟩
            | cons x tl' =>
                have hmem : '.' ∈ rest := by
                  by_contra hnr
                  have := splitCh_no_sep '.' rest hnr
                  rw [h] at this
                  simp at this
                have hlast : (splitCh '.' (c :: rest)).getLastD [] = (splitCh '.' rest).getLastD [] := by
                  rw [splitCh, if_neg hc, h]
                  simp only [List.getLastD_cons]
                rw [hlast]
                set E := (splitCh '.' rest).getLastD [] with hE
                obtain ⟨hnd, hca⟩ := ih
                refine ⟨hnd, Or.inr ?_⟩
                rcases hca with ⟨hnr, _⟩ | ⟨pre, hpre⟩
                · exact absurd hmem hnr
                · exact ⟨c :: pre, by rw [List.cons_append, ← hpre]⟩

theorem mem_notin_append_unique {α : Type} (x : α) :
    ∀ (a₁ a₂ b₁ b₂ : List α), x ∉ a₁ → x ∉ a₂ → a₁ ++ x :: b₁ = a₂ ++ x :: b₂ → a₁ = a₂ := by
  intro a₁
  induction a₁ with
  | nil =>
      intro a₂ b₁ b₂ _ h₂ heq
      cases a₂ with
      | nil => rfl
      | cons z a₂' =>
          simp only [List.nil_append, List.cons_append, List.cons.injEq] at heq
          exact absurd (heq.1 ▸ List.mem_cons_self z a₂') h₂
  | cons y a₁' ih =>
      intro a₂ b₁ b₂ h₁ h₂ heq
      cases a₂ with
      | nil =>
          simp only [List.cons_append, List.nil_append, List.cons.injEq] at heq
          exact absurd (heq.1 ▸ List.mem_cons_self y a₁') h₁
      | cons z a₂' =>
          simp only [List.cons_append, List.cons.injEq] at heq
          have := ih a₂' b₁ b₂ (fun hm => h₁ (List.mem_cons_of_mem y hm))
            (fun hm => h₂ (List.mem_cons_of_mem z hm)) heq.2
          rw [heq.1, this]

theorem isAfterLastDot_unique (l e₁ e₂ : List Char)
    (h₁ : IsAfterLastDot l e₁) (h₂ : IsAfterLastDot l e₂) : e₁ = e₂ := by
  obtain ⟨hn₁, hc₁⟩ := h₁
  obtain ⟨hn₂, hc₂⟩ := h₂
  rcases hc₁ with ⟨hl₁, he₁⟩ | ⟨pre₁, hp₁⟩
  · rcases hc₂ with ⟨_, he₂⟩ | ⟨pre₂, hp₂⟩
    · rw [he₁, he₂]
    · exact absurd (hp₂ ▸ List.mem_append_right pre₂ (List.mem_cons_self '.' e₂)) hl₁
  · rcases hc₂ with ⟨hl₂, _⟩ | ⟨pre₂, hp₂⟩
    · exact absurd (hp₁ ▸ List.mem_append_right pre₁ (List.mem_cons_self '.' e₁)) hl₂
    · have heq : e₁.reverse ++ '.' :: pre₁.reverse = e₂.reverse ++ '.' :: pre₂.reverse := by
        have : l.reverse = l.reverse := rfl
        calc e₁.reverse ++ '.' :: pre₁.reverse
            = (pre₁ ++ '.' :: e₁).reverse := by simp
          _ = (pre₂ ++ '.' :: e₂).reverse := by rw [← hp₁, ← hp₂]
          _ = e₂.reverse ++ '.' :: pre₂.reverse := by simp
      have hrev : e₁.reverse = e₂.reverse :=
        mem_notin_append_unique '.' e₁.reverse e₂.reverse pre₁.reverse pre₂.reverse
          (by simpa using hn₁) (by simpa using hn₂) heq
      exact List.reverse_injective hrev

/-- C4 counterexample: the membership test in `is_valid_file_extension` is
NOT case-insensitive on the allowed-extension strings.  The extension of
`"sample.qassoc"` equals `".QASSOC"` up to case (their lower-casings agree),
so the claim demands `true`, but the function compares the lower-cased
extension to the allowed strings by exact equality and returns `false`. -/
theorem is_valid_file_extension_allowed_case_cex :
    is_valid_file_extension "sample.qassoc" [".QASSOC"] = false ∧
      pyLower ".QASSOC" = ".qassoc" ∧
      is_valid_file_extension "sample.qassoc" [".qassoc"] = true := by
  refine ⟨by decide, by decide, by decide⟩

/-- C4 (amended): `is_valid_file_extension` returns `true` iff the substring
after the last `'.'` of the file name, lower-cased and re-prefixed with
`'.'`, is a member of the allowed set under EXACT string comparison — the
lower-casing makes the test case-insensitive in the file name only, not in
the allowed-extension strings. -/
theorem is_valid_file_extension_spec (name : String) (exts : List String) :
    is_valid_file_extension name exts = true ↔
      ∃ e, IsAfterLastDot name.data e ∧ pyLower ("." ++ String.mk e) ∈ exts := by
  unfold is_valid_file_extension
  simp only [decide_eq_true_eq]
  constructor
  · intro hmem
    exact ⟨(splitCh '.' name.data).getLastD [], isAfterLastDot_splitCh name.data, hmem⟩
  · rintro ⟨e, he, hmem⟩
    have : e = (splitCh '.' name.data).getLastD [] :=
      isAfterLastDot_unique name.data e _ he (isAfterLastDot_splitCh name.data)
    rw [this] at hmem
    exact hmem

/-- C5: for a file name containing no `'.'`, `is_valid_file_extension`
returns a value (total, no exception: Python's `split` always yields a
nonempty list, so the `[-1]` index is safe) and treats the whole name
prefixed with `'.'` as the extension, so its result is exactly the
membership test of that string against the allowed set — `false` for any
set of real extensions, e.g. for `"sample"` against `{".gwas"}`. -/
theorem is_valid_file_extension_no_dot (name : String) (exts : List String)
    (h : '.' ∉ name.data) :
    is_valid_file_extension name exts = decide (pyLower ("." ++ name) ∈ exts) := by
  obtain ⟨dl⟩ := name
  unfold is_valid_file_extension
  rw [splitCh_no_sep '.' dl h]
  rfl

/-- Witness for C5 at the spec's own example. -/
theorem is_valid_file_extension_no_dot_witness :
    '.' ∉ "sample".data ∧ is_valid_file_extension "sample" [".gwas"] = false :=
  ⟨by decide, (is_valid_file_extension_no_dot "sample" [".gwas"] (by decide)).trans (by decide)⟩

theorem fieldsSatisfied_eq_true_iff (cols : List String) (schema : List (List String)) :
    fieldsSatisfied cols schema = true ↔ ∀ s ∈ schema, ∃ c ∈ cols, pyLower c ∈ s := by
  simp [fieldsSatisfied, List.all_eq_true, List.any_eq_true]

theorem schema_length_le_of_disjoint (schema : List (List String)) (L : List String)
    (hdisj : schema.Pairwise (fun a b => ∀ x ∈ a, x ∉ b))
    (hsat : ∀ s ∈ schema, ∃ c ∈ L, c ∈ s) : schema.length ≤ L.length := by
  induction schema generalizing L with
  | nil => simp
  | cons s rest ih =>
      obtain ⟨c, hcL, hcs⟩ := hsat s (List.mem_cons_self s rest)
      obtain ⟨hhead, htail⟩ := List.pairwise_cons.mp hdisj
      have hrest : ∀ t ∈ rest, ∃ d ∈ L.erase c, d ∈ t := by
        intro t ht
        obtain ⟨d, hdL, hdt⟩ := hsat t (List.mem_cons_of_mem s ht)
        have hdc : d ≠ c := by
          intro hdc
          subst hdc
          exact hhead t ht d hcs hdt
        exact ⟨d, (List.mem_erase_of_ne hdc).mpr hdL, hdt⟩
      have h1 : rest.length ≤ (L.erase c).length := ih (L.erase c) htail hrest
      have h2 : (L.erase c).length = L.length - 1 := List.length_erase_of_mem hcL
      have h3 : 0 < L.length := List.length_pos.mpr (List.ne_nil_of_mem hcL)
      simp only [List.length_cons]
      omega

theorem has_valid_body_eq_fieldsSatisfied (cols : List String) (schema : List (List String)) :
    (schema.map (fun possible => (cols.map pyLower).any (fun column => decide (column ∈ possible)))).all id
      = fieldsSatisfied cols schema := by
  rw [Bool.eq_iff_iff]
  simp [fieldsSatisfied, List.all_eq_true, List.any_eq_true, Function.comp]

/-- C2 counterexample: the count guard in `has_valid_column_names` is NOT
redundant for every schema.  For a schema of two FieldSpecs sharing the
alias `"x"`, the single column `"x"` satisfies every FieldSpec
case-insensitively, yet the function returns `false` because there are
fewer columns than FieldSpecs. -/
theorem has_valid_column_names_count_guard_cex :
    fieldsSatisfied ["x"] [["x"], ["x"]] = true ∧
      has_valid_column_names ["x"] [["x"], ["x"]] = false :=
  ⟨by decide, by decide⟩

/-- C2 (amended): for every schema whose alias sets are pairwise disjoint —
as the fixed four-field schema's are — `has_valid_column_names` returns
`true` iff every FieldSpec has at least one alias present case-insensitively
among the column names, i.e. the count guard never changes the result
relative to the per-field check; with overlapping alias sets the guard can
flip the result.  In particular a list with two columns aliasing the same
field still yields `true`. -/
theorem has_valid_column_names_eq_fieldsSatisfied (cols : List String) (schema : List (List String))
    (hdisj : schema.Pairwise (fun a b => ∀ x ∈ a, x ∉ b)) :
    has_valid_column_names cols schema = fieldsSatisfied cols schema := by
  show (if (cols.map pyLower).length < schema.length then false
        else (schema.map (fun possible => (cols.map pyLower).any
          (fun column => decide (column ∈ possible)))).all id) = fieldsSatisfied cols schema
  by_cases hlen : (cols.map pyLower).length < schema.length
  · rw [if_pos hlen]
    cases hfs : fieldsSatisfied cols schema with
    | false => rfl
    | true =>
        exfalso
        have hsat := (fieldsSatisfied_eq_true_iff cols schema).mp hfs
        have hsat' : ∀ s ∈ schema, ∃ c ∈ cols.map pyLower, c ∈ s := by
          intro s hs
          obtain ⟨c, hc, hcl⟩ := hsat s hs
          exact ⟨pyLower c, List.mem_map_of_mem pyLower hc, hcl⟩
        have hle := schema_length_le_of_disjoint schema (cols.map pyLower) hdisj hsat'
        omega
  · rw [if_neg hlen]
    exact has_valid_body_eq_fieldsSatisfied cols schema

/-- Witness for C2's amended theorem: the fixed four-field schema is
pairwise disjoint, and a column list containing two aliases of the `chr`
field (`"chromosome"` and `"chr"`) still validates as `true`. -/
theorem has_valid_column_names_eq_fieldsSatisfied_witness :
    required_columns.Pairwise (fun a b => ∀ x ∈ a, x ∉ b) ∧
      has_valid_column_names ["chromosome", "chr", "bp", "snp", "p"] required_columns = true :=
  ⟨by decide, by
    rw [has_valid_column_names_eq_fieldsSatisfied ["chromosome", "chr", "bp", "snp", "p"]
      required_columns (by decide)]
    decide⟩

/-- C6: `has_valid_column_names` is case-insensitive in its column list:
two column lists that agree after lower-casing (in particular, the same
list with any letter-casing changes) produce the same boolean, for every
schema. -/
theorem has_valid_column_names_case_insensitive (schema : List (List String)) (cols₁ cols₂ : List String)
    (h : cols₁.map pyLower = cols₂.map pyLower) :
    has_valid_column_names cols₁ schema = has_valid_column_names cols₂ schema := by
  unfold has_valid_column_names
  rw [h]

/-- Witness for C6 at concrete casings of the same column names. -/
theorem has_valid_column_names_case_insensitive_witness :
    ["CHR", "POS", "rsID", "P"].map pyLower = ["chr", "pos", "rsid", "p"].map pyLower ∧
      has_valid_column_names ["CHR", "POS", "rsID", "P"] required_columns =
        has_valid_column_names ["chr", "pos", "rsid", "p"] required_columns :=
  ⟨by decide, has_valid_column_names_case_insensitive required_columns
    ["CHR", "POS", "rsID", "P"] ["chr", "pos", "rsid", "p"] (by decide)⟩

theorem alookup_nil {β : Type} (k : String) : alookup k ([] : List (String × β)) = none := rfl

theorem alookup_cons {β : Type} (k k' : String) (v : β) (rest : List (String × β)) :
    alookup k ((k', v) :: rest) = if k' = k then some v else alookup k rest := rfl

theorem alookup_map_overwrite {β : Type} (m : List (String × β)) (k : String) (v : β)
    (h : k ∈ m.map Prod.fst) :
    alookup k (m.map (fun p => if p.1 = k then (k, v) else p)) = some v := by
  induction m with
  | nil => simp at h
  | cons q m' ih =>
      obtain ⟨qk, qv⟩ := q
      rw [List.map_cons]
      by_cases hq : qk = k
      · rw [if_pos hq, alookup_cons, if_pos rfl]
      · rw [if_neg hq, alookup_cons, if_neg hq]
        apply ih
        have h' : k = qk ∨ k ∈ m'.map Prod.fst := by simpa using h
        rcases h' with h0 | h0
        · exact absurd h0.symm hq
        · exact h0

theorem alookup_map_overwrite_ne {β : Type} (m : List (String × β)) (k : String) (v : β)
    (n : String) (hn : n ≠ k) :
    alookup n (m.map (fun p => if p.1 = k then (k, v) else p)) = alookup n m := by
  induction m with
  | nil => rfl
  | cons q m' ih =>
      obtain ⟨qk, qv⟩ := q
      rw [List.map_cons]
      by_cases hq : qk = k
      · have h1 : ¬(k = n) := fun h => hn h.symm
        have h2 : ¬(qk = n) := by rw [hq]; exact h1
        rw [if_pos hq, alookup_cons, if_neg h1, alookup_cons, if_neg h2, ih]
      · by_cases hqn : qk = n
        · rw [if_neg hq, alookup_cons, if_pos hqn, alookup_cons, if_pos hqn]
        · rw [if_neg hq, alookup_cons, if_neg hqn, alookup_cons, if_neg hqn, ih]

theorem alookup_append_single {β : Type} (m : List (String × β)) (k : String) (v : β)
    (h : k ∉ m.map Prod.fst) :
    alookup k (m ++ [(k, v)]) = some v := by
  induction m with
  | nil => rw [List.nil_append, alookup_cons, if_pos rfl]
  | cons q m' ih =>
      obtain ⟨qk, qv⟩ := q
      have hq : ¬(qk = k) := by
        intro hq
        exact h (by simp [hq])
      have h' : k ∉ m'.map Prod.fst := by
        intro hm
        exact h (by simp [hm])
      rw [List.cons_append, alookup_cons, if_neg hq, ih h']

theorem alookup_append_single_ne {β : Type} (m : List (String × β)) (k : String) (v : β)
    (n : String) (hn : n ≠ k) :
    alookup n (m ++ [(k, v)]) = alookup n m := by
  induction m with
  | nil =>
      rw [List.nil_append, alookup_cons, if_neg (fun h => hn h.symm), alookup_nil]
  | cons q m' ih =>
      obtain ⟨qk, qv⟩ := q
      rw [List.cons_append, alookup_cons, alookup_cons, ih]

theorem alookup_dictInsert_self {β : Type} (m : List (String × β)) (k : String) (v : β) :
    alookup k (dictInsert m k v) = some v := by
  unfold dictInsert
  by_cases h : k ∈ m.map Prod.fst
  · rw [if_pos h]
    exact alookup_map_overwrite m k v h
  · rw [if_neg h]
    exact alookup_append_single m k v h

theorem alookup_dictInsert_ne {β : Type} (m : List (String × β)) (k : String) (v : β)
    (n : String) (hn : n ≠ k) :
    alookup n (dictInsert m k v) = alookup n m := by
  unfold dictInsert
  by_cases h : k ∈ m.map Prod.fst
  · rw [if_pos h]
    exact alookup_map_overwrite_ne m k v n hn
  · rw [if_neg h]
    exact alookup_append_single_ne m k v n hn

theorem headers_dictInsert_not_mem {β : Type} (m : List (String × β)) (k : String) (v : β)
    (h : k ∉ m.map Prod.fst) :
    (dictInsert m k v).map Prod.fst = m.map Prod.fst ++ [k] := by
  rw [dictInsert, if_neg h]
  simp

theorem alookup_assignMatches_ne (default_name : String) (possible : List String)
    (cols : List String) (m : List (String × String)) (k : String) (hk : k ≠ default_name) :
    alookup k (assignMatches m default_name possible cols) = alookup k m := by
  induction cols generalizing m with
  | nil => rfl
  | cons c cs ih =>
      refine (ih (if pyLower c ∈ possible then dictInsert m default_name c else m)).trans ?_
      by_cases hc : pyLower c ∈ possible
      · rw [if_pos hc]
        exact alookup_dictInsert_ne m default_name c k hk
      · rw [if_neg hc]

theorem alookup_assignMatches_self (default_name : String) (possible : List String)
    (cols : List String) (m : List (String × String)) :
    alookup default_name (assignMatches m default_name possible cols) =
      lastMatchFrom possible cols (alookup default_name m) := by
  induction cols generalizing m with
  | nil => rfl
  | cons c cs ih =>
      refine (ih (if pyLower c ∈ possible then dictInsert m default_name c else m)).trans ?_
      by_cases hc : pyLower c ∈ possible
      · rw [if_pos hc, alookup_dictInsert_self]
        show lastMatchFrom possible cs (some c) = lastMatchFrom possible (c :: cs) _
        unfold lastMatchFrom
        rw [List.foldl_cons, if_pos hc]
      · rw [if_neg hc]
        show lastMatchFrom possible cs _ = lastMatchFrom possible (c :: cs) _
        unfold lastMatchFrom
        rw [List.foldl_cons, if_neg hc]

theorem alookup_foldl_assignMatches (pairs : List (String × List String)) (cols : List String)
    (m : List (String × String)) (k : String) :
    alookup k (pairs.foldl (fun acc pr => assignMatches acc pr.1 pr.2 cols) m) =
      pairs.foldl (fun acc pr => if pr.1 = k then lastMatchFrom pr.2 cols acc else acc)
        (alookup k m) := by
  induction pairs generalizing m with
  | nil => rfl
  | cons pr rest ih =>
      refine (ih (assignMatches m pr.1 pr.2 cols)).trans ?_
      rw [List.foldl_cons]
      congr 1
      by_cases hp : pr.1 = k
      · rw [if_pos hp, ← hp]
        exact alookup_assignMatches_self pr.1 pr.2 cols m
      · rw [if_neg hp]
        exact alookup_assignMatches_ne pr.1 pr.2 cols m k (fun h => hp h.symm)

theorem lastMatchFrom_eq_some (possible cols : List String) (acc : Option String) (v : String)
    (h : lastMatchFrom possible cols acc = some v) :
    (v ∈ cols ∧ pyLower v ∈ possible) ∨ acc = some v := by
  induction cols generalizing acc with
  | nil => exact Or.inr h
  | cons c cs ih =>
      have h' : lastMatchFrom possible cs (if pyLower c ∈ possible then some c else acc) = some v := h
      rcases ih (if pyLower c ∈ possible then some c else acc) h' with ⟨hv, hr⟩ | hacc
      · exact Or.inl ⟨List.mem_cons_of_mem c hv, hr⟩
      · by_cases hc : pyLower c ∈ possible
        · rw [if_pos hc] at hacc
          obtain rfl : c = v := Option.some.inj hacc
          exact Or.inl ⟨List.mem_cons_self c cs, hc⟩
        · rw [if_neg hc] at hacc
          exact Or.inr hacc

theorem lastMatchFrom_isSome_iff (possible cols : List String) (acc : Option String) :
    (lastMatchFrom possible cols acc).isSome = true ↔
      (∃ c ∈ cols, pyLower c ∈ possible) ∨ acc.isSome = true := by
  induction cols generalizing acc with
  | nil => simp [lastMatchFrom]
  | cons c cs ih =>
      have hstep : lastMatchFrom possible (c :: cs) acc =
          lastMatchFrom possible cs (if pyLower c ∈ possible then some c else acc) := rfl
      rw [hstep, ih (if pyLower c ∈ possible then some c else acc)]
      by_cases hc : pyLower c ∈ possible
      · rw [if_pos hc]
        constructor
        · intro _
          exact Or.inl ⟨c, List.mem_cons_self c cs, hc⟩
        · intro _
          exact Or.inr (by simp)
      · rw [if_neg hc]
        constructor
        · rintro (⟨x, hx, hr⟩ | ha)
          · exact Or.inl ⟨x, List.mem_cons_of_mem c hx, hr⟩
          · exact Or.inr ha
        · rintro (⟨x, hx, hr⟩ | ha)
          · rcases List.mem_cons.mp hx with rfl | hx'
            · exact absurd hr hc
            · exact Or.inl ⟨x, hx', hr⟩
          · exact Or.inr ha

theorem lastMatchFrom_no_match (possible post : List String) (acc : Option String)
    (h : ∀ d ∈ post, pyLower d ∉ possible) : lastMatchFrom possible post acc = acc := by
  induction post generalizing acc with
  | nil => rfl
  | cons d ds ih =>
      have hd := h d (List.mem_cons_self d ds)
      show lastMatchFrom possible ds (if pyLower d ∈ possible then some d else acc) = acc
      rw [if_neg hd]
      exact ih acc (fun x hx => h x (List.mem_cons_of_mem d hx))

theorem schema_pairs_eval : default_names.zip required_columns =
    [("chr", ["chr", "chromosome"]),
     ("bp", ["bp", "pos", "position"]),
     ("snp", ["snp", "rs", "rsid", "rsnum", "id", "marker", "markername"]),
     ("p", ["p", "pval", "p-value", "pvalue", "p.value"])] := rfl

theorem alookup_buildColumnNameMap (cols : List String) (k : String) :
    alookup k (buildColumnNameMap cols) =
      (default_names.zip required_columns).foldl
        (fun acc pr => if pr.1 = k then lastMatchFrom pr.2 cols acc else acc) none :=
  alookup_foldl_assignMatches (default_names.zip required_columns) cols [] k

theorem buildColumnNameMap_lookup_eq_lastMatch (cols : List String) (k : String) (req : List String)
    (hreq : alookup k (default_names.zip required_columns) = some req) :
    alookup k (buildColumnNameMap cols) = lastMatchFrom req cols none := by
  rw [alookup_buildColumnNameMap, schema_pairs_eval]
  rw [schema_pairs_eval] at hreq
  by_cases h1 : "chr" = k
  · rw [alookup_cons, if_pos h1] at hreq
    obtain rfl : ["chr", "chromosome"] = req := Option.some.inj hreq
    subst h1
    simp
  · rw [alookup_cons, if_neg h1] at hreq
    by_cases h2 : "bp" = k
    · rw [alookup_cons, if_pos h2] at hreq
      obtain rfl : ["bp", "pos", "position"] = req := Option.some.inj hreq
      subst h2
      simp
    · rw [alookup_cons, if_neg h2] at hreq
      by_cases h3 : "snp" = k
      · rw [alookup_cons, if_pos h3] at hreq
        obtain rfl : ["snp", "rs", "rsid", "rsnum", "id", "marker", "markername"] = req :=
          Option.some.inj hreq
        subst h3
        simp
      · rw [alookup_cons, if_neg h3] at hreq
        by_cases h4 : "p" = k
        · rw [alookup_cons, if_pos h4] at hreq
          obtain rfl : ["p", "pval", "p-value", "pvalue", "p.value"] = req := Option.some.inj hreq
          subst h4
          simp
        · rw [alookup_cons, if_neg h4, alookup_nil] at hreq
          cases hreq

theorem buildColumnNameMap_lookup_none (cols : List String) (k : String)
    (hk : alookup k (default_names.zip required_columns) = none) :
    alookup k (buildColumnNameMap cols) = none := by
  rw [alookup_buildColumnNameMap, schema_pairs_eval]
  rw [schema_pairs_eval] at hk
  by_cases h1 : "chr" = k
  · rw [alookup_cons, if_pos h1] at hk
    cases hk
  · rw [alookup_cons, if_neg h1] at hk
    by_cases h2 : "bp" = k
    · rw [alookup_cons, if_pos h2] at hk
      cases hk
    · rw [alookup_cons, if_neg h2] at hk
      by_cases h3 : "snp" = k
      · rw [alookup_cons, if_pos h3] at hk
        cases hk
      · rw [alookup_cons, if_neg h3] at hk
        by_cases h4 : "p" = k
        · rw [alookup_cons, if_pos h4] at hk
          cases hk
        · simp only [List.foldl_cons, List.foldl_nil, if_neg h1, if_neg h2, if_neg h3, if_neg h4]

/-- C1 counterexample: with columns `["chromosome","chr","bp","snp","p"]`
and the fixed four-field schema, the name map built in `main` sends the
canonical `'chr'` to `"chr"` — the LAST aliasing column in original order
(the inner loop has no `break`, so later matches overwrite earlier ones) —
and not to `"chromosome"` as the first-match claim requires. -/
theorem buildColumnNameMap_first_match_cex :
    alookup "chr" (buildColumnNameMap ["chromosome", "chr", "bp", "snp", "p"]) = some "chr" ∧
      alookup "chr" (buildColumnNameMap ["chromosome", "chr", "bp", "snp", "p"]) ≠ some "chromosome" :=
  ⟨by decide, by decide⟩

/-- C1 (amended): for every column list, `buildColumnNameMap` assigns each
canonical field the LAST column (in original column order) whose
lower-cased name is in that field's alias set: whenever the columns split
as `pre ++ c :: post` with `c` matching the field's aliases and nothing in
`post` matching them, the map sends the canonical name to `c`.  For
columns `["chromosome","chr","bp","snp","p"]` the map sends canonical
`'chr'` to `"chr"`, not `"chromosome"`. -/
theorem buildColumnNameMap_last_match (cols pre post : List String) (c k : String)
    (req : List String)
    (hreq : alookup k (default_names.zip required_columns) = some req)
    (hcols : cols = pre ++ c :: post)
    (hc : pyLower c ∈ req)
    (hpost : ∀ d ∈ post, pyLower d ∉ req) :
    alookup k (buildColumnNameMap cols) = some c := by
  rw [buildColumnNameMap_lookup_eq_lastMatch cols k req hreq, hcols]
  have h1 : lastMatchFrom req (pre ++ c :: post) none = lastMatchFrom req post (some c) := by
    unfold lastMatchFrom
    simp only [List.foldl_append, List.foldl_cons]
    rw [if_pos hc]
  rw [h1, lastMatchFrom_no_match req post (some c) hpost]

/-- Witness for C1's amended theorem at the spec's own example. -/
theorem buildColumnNameMap_last_match_witness :
    pyLower "chr" ∈ ["chr", "chromosome"] ∧
      alookup "chr" (buildColumnNameMap ["chromosome", "chr", "bp", "snp", "p"]) = some "chr" :=
  ⟨by decide, buildColumnNameMap_last_match ["chromosome", "chr", "bp", "snp", "p"]
    ["chromosome"] ["bp", "snp", "p"] "chr" "chr" ["chr", "chromosome"]
    (by decide) rfl (by decide) (by decide)⟩

/-- C9: invariants of the column-name map built in `main`: (1) every key
bound in the map is a canonical name (it owns an alias list in the fixed
schema), and its value is a column present in the uploaded table whose
lower-cased form belongs to that key's alias list; (2) a canonical name is
bound in the map iff at least one aliasing column exists — absent fields
are simply missing from the map, and the construction itself raises no
error. -/
theorem buildColumnNameMap_invariant (cols : List String) :
    (∀ k v, alookup k (buildColumnNameMap cols) = some v →
      ∃ req, alookup k (default_names.zip required_columns) = some req ∧
        v ∈ cols ∧ pyLower v ∈ req) ∧
    (∀ k req, alookup k (default_names.zip required_columns) = some req →
      ((alookup k (buildColumnNameMap cols)).isSome = true ↔ ∃ c ∈ cols, pyLower c ∈ req)) := by
  constructor
  · intro k v hv
    cases hreq : alookup k (default_names.zip required_columns) with
    | none =>
        rw [buildColumnNameMap_lookup_none cols k hreq] at hv
        cases hv
    | some req =>
        rw [buildColumnNameMap_lookup_eq_lastMatch cols k req hreq] at hv
        rcases lastMatchFrom_eq_some req cols none v hv with ⟨hvc, hvr⟩ | hnone
        · exact ⟨req, rfl, hvc, hvr⟩
        · cases hnone
  · intro k req hreq
    rw [buildColumnNameMap_lookup_eq_lastMatch cols k req hreq, lastMatchFrom_isSome_iff]
    simp

/-- Witness for C9 at the spec's end-to-end example columns. -/
theorem buildColumnNameMap_invariant_witness :
    (∃ req, alookup "chr" (default_names.zip required_columns) = some req ∧
      "CHR" ∈ ["CHR", "POS", "rsID", "P"] ∧ pyLower "CHR" ∈ req) ∧
    ((alookup "snp" (buildColumnNameMap ["CHR", "POS", "rsID", "P"])).isSome = true ↔
      ∃ c ∈ ["CHR", "POS", "rsID", "P"],
        pyLower c ∈ ["snp", "rs", "rsid", "rsnum", "id", "marker", "markername"]) :=
  ⟨(buildColumnNameMap_invariant ["CHR", "POS", "rsID", "P"]).1 "chr" "CHR" (by decide),
   (buildColumnNameMap_invariant ["CHR", "POS", "rsID", "P"]).2 "snp"
     ["snp", "rs", "rsid", "rsnum", "id", "marker", "markername"] (by decide)⟩

theorem except_bind_ok {ε α β : Type} (a : α) (f : α → Except ε β) :
    (Except.ok a : Except ε α) >>= f = f a := rfl

theorem except_bind_error {ε α β : Type} (e : ε) (f : α → Except ε β) :
    (Except.error e : Except ε α) >>= f = (Except.error e : Except ε β) := rfl

theorem headers_setCol_not_mem {α : Type} (df : Df α) (name : String) (vals : List α)
    (h : name ∉ headers df) : headers (setCol df name vals) = headers df ++ [name] :=
  headers_dictInsert_not_mem df name vals h

theorem alookup_setCol_ne {α : Type} (df : Df α) (name : String) (vals : List α)
    (n : String) (hn : n ≠ name) : alookup n (setCol df name vals) = alookup n df :=
  alookup_dictInsert_ne df name vals n hn

theorem addDbSNPColumn_ok_inv {α : Type} (link : α → α → α) (df df₁ : Df α)
    (m : List (String × String)) (h : addDbSNPColumn link df m = Except.ok df₁) :
    ∃ vals, df₁ = setCol df "dbSNP" vals := by
  unfold addDbSNPColumn at h
  cases hchr : dictGet m "chr" with
  | error e => rw [hchr, except_bind_error] at h; cases h
  | ok chr_name =>
      rw [hchr, except_bind_ok] at h
      cases hbp : dictGet m "bp" with
      | error e => rw [hbp, except_bind_error] at h; cases h
      | ok bp_name =>
          rw [hbp, except_bind_ok] at h
          cases hcv : getCol df chr_name with
          | error e => rw [hcv, except_bind_error] at h; cases h
          | ok chr_vals =>
              rw [hcv, except_bind_ok] at h
              cases hbv : getCol df bp_name with
              | error e => rw [hbv, except_bind_error] at h; cases h
              | ok bp_vals =>
                  rw [hbv, except_bind_ok] at h
                  exact ⟨List.zipWith link chr_vals bp_vals, (Except.ok.inj h).symm⟩

theorem plotly_ok_inv {α : Type} (negLog10 : α → α) (df df₂ : Df α)
    (m : List (String × String))
    (h : plotly_plot_genome_position_v_pval negLog10 df m = Except.ok df₂) :
    ∃ vals, df₂ = setCol df "-log10(p)" vals := by
  unfold plotly_plot_genome_position_v_pval at h
  cases hp : dictGet m "p" with
  | error e => rw [hp, except_bind_error] at h; cases h
  | ok p_name =>
      rw [hp, except_bind_ok] at h
      cases hpv : getCol df p_name with
      | error e => rw [hpv, except_bind_error] at h; cases h
      | ok p_vals =>
          simp only [hpv, except_bind_ok] at h
          cases hbp : dictGet m "bp" with
          | error e => simp only [hbp, except_bind_error] at h; cases h
          | ok bp_name =>
              simp only [hbp, except_bind_ok] at h
              cases hr1 : getCol (setCol df "-log10(p)" (p_vals.map negLog10)) bp_name with
              | error e => simp only [hr1, except_bind_error] at h; cases h
              | ok r1 =>
                  simp only [hr1, except_bind_ok] at h
                  cases hr2 : getCol (setCol df "-log10(p)" (p_vals.map negLog10)) "-log10(p)" with
                  | error e => simp only [hr2, except_bind_error] at h; cases h
                  | ok r2 =>
                      simp only [hr2, except_bind_ok] at h
                      cases hsnp : dictGet m "snp" with
                      | error e => simp only [hsnp, except_bind_error] at h; cases h
                      | ok snp_name =>
                          simp only [hsnp, except_bind_ok] at h
                          cases hr3 : getCol (setCol df "-log10(p)" (p_vals.map negLog10)) snp_name with
                          | error e => simp only [hr3, except_bind_error] at h; cases h
                          | ok r3 =>
                              simp only [hr3, except_bind_ok] at h
                              cases hr4 : getCol (setCol df "-log10(p)" (p_vals.map negLog10)) p_name with
                              | error e => simp only [hr4, except_bind_error] at h; cases h
                              | ok r4 =>
                                  simp only [hr4, except_bind_ok] at h
                                  exact ⟨p_vals.map negLog10, (Except.ok.inj h).symm⟩

/-- C3 fails on the code as written (code bug): with uploaded columns
`["chr","bp","p"]` — no snp alias — validation reports `false`, yet `main`
still builds the name map, successfully computes and appends the `dbSNP`
link column (derived computation on a table it just declared invalid),
computes `-log10(p)`, and finally dies with `KeyError 'snp'` when the plot
indexes the map for the missing field.  The map building and all derived
steps sit outside the validation's `else`, so nothing halts. -/
theorem main_continues_after_invalid_columns :
    (mainAfterRead (fun _ _ => 0) (fun x => x + 1)
        ([("chr", [1]), ("bp", [2]), ("p", [3])] : Df Nat)).1 = false ∧
      addDbSNPColumn (fun _ _ => 0) ([("chr", [1]), ("bp", [2]), ("p", [3])] : Df Nat)
          (buildColumnNameMap ["chr", "bp", "p"]) =
        Except.ok [("chr", [1]), ("bp", [2]), ("p", [3]), ("dbSNP", [0])] ∧
      (mainAfterRead (fun _ _ => 0) (fun x => x + 1)
        ([("chr", [1]), ("bp", [2]), ("p", [3])] : Df Nat)).2 = Except.error "snp" :=
  ⟨rfl, rfl, rfl⟩

/-- C7 counterexample: the downstream derived-value computation is NOT
pure with respect to the input table: on a fully valid table the `main`
pipeline returns a frame whose column list has grown by `dbSNP` and
`-log10(p)`, so the table's columns are changed. -/
theorem derived_computation_mutates_table_cex :
    mainAfterRead (fun _ _ => 0) (fun x => x + 1)
        ([("chr", [1]), ("bp", [2]), ("snp", [3]), ("p", [4])] : Df Nat) =
      (true, Except.ok [("chr", [1]), ("bp", [2]), ("snp", [3]), ("p", [4]),
        ("dbSNP", [0]), ("-log10(p)", [5])]) ∧
      headers ([("chr", [1]), ("bp", [2]), ("snp", [3]), ("p", [4]),
          ("dbSNP", [0]), ("-log10(p)", [5])] : Df Nat) ≠
        headers ([("chr", [1]), ("bp", [2]), ("snp", [3]), ("p", [4])] : Df Nat) :=
  ⟨rfl, by decide⟩

/-- C7 (amended): the extension check, column validation and name-map
construction are pure — in this embedding they are functions of the column
names alone and return fresh values, leaving the table untouched — but the
derived-value computation mutates the table: when the new column names are
not already present it appends a `dbSNP` and then a `-log10(p)` column, in
that order, while leaving every other column's name and row data
unchanged. -/
theorem derived_computation_frame (α : Type) (link : α → α → α) (negLog10 : α → α)
    (df df₁ df₂ : Df α) (m : List (String × String))
    (h₁ : addDbSNPColumn link df m = Except.ok df₁)
    (h₂ : plotly_plot_genome_position_v_pval negLog10 df₁ m = Except.ok df₂)
    (hd : "dbSNP" ∉ headers df) (hl : "-log10(p)" ∉ headers df) :
    headers df₂ = headers df ++ ["dbSNP", "-log10(p)"] ∧
      ∀ n, n ≠ "dbSNP" → n ≠ "-log10(p)" → alookup n df₂ = alookup n df := by
  obtain ⟨vals₁, rfl⟩ := addDbSNPColumn_ok_inv link df df₁ m h₁
  obtain ⟨vals₂, rfl⟩ := plotly_ok_inv negLog10 _ df₂ m h₂
  have hh₁ : headers (setCol df "dbSNP" vals₁) = headers df ++ ["dbSNP"] :=
    headers_setCol_not_mem df "dbSNP" vals₁ hd
  have hl₁ : "-log10(p)" ∉ headers (setCol df "dbSNP" vals₁) := by
    rw [hh₁]
    intro hmem
    rcases List.mem_append.mp hmem with hmem | hmem
    · exact hl hmem
    · simp at hmem
  constructor
  · rw [headers_setCol_not_mem _ "-log10(p)" vals₂ hl₁, hh₁, List.append_assoc]
    rfl
  · intro n hn1 hn2
    rw [alookup_setCol_ne _ "-log10(p)" vals₂ n hn2]
    exact alookup_setCol_ne df "dbSNP" vals₁ n hn1

/-- Witness for C7's amended theorem on a concrete valid table. -/
theorem derived_computation_frame_witness :
    headers ([("chr", [1]), ("bp", [2]), ("snp", [3]), ("p", [4]),
        ("dbSNP", [0]), ("-log10(p)", [5])] : Df Nat) =
      headers ([("chr", [1]), ("bp", [2]), ("snp", [3]), ("p", [4])] : Df Nat) ++
        ["dbSNP", "-log10(p)"] ∧
      alookup "chr" ([("chr", [1]), ("bp", [2]), ("snp", [3]), ("p", [4]),
          ("dbSNP", [0]), ("-log10(p)", [5])] : Df Nat) =
        alookup "chr" ([("chr", [1]), ("bp", [2]), ("snp", [3]), ("p", [4])] : Df Nat) :=
  ⟨(derived_computation_frame Nat (fun _ _ => 0) (fun x => x + 1)
      [("chr", [1]), ("bp", [2]), ("snp", [3]), ("p", [4])]
      [("chr", [1]), ("bp", [2]), ("snp", [3]), ("p", [4]), ("dbSNP", [0])]
      [("chr", [1]), ("bp", [2]), ("snp", [3]), ("p", [4]), ("dbSNP", [0]), ("-log10(p)", [5])]
      (buildColumnNameMap ["chr", "bp", "snp", "p"]) rfl rfl (by decide) (by decide)).1,
   (derived_computation_frame Nat (fun _ _ => 0) (fun x => x + 1)
      [("chr", [1]), ("bp", [2]), ("snp", [3]), ("p", [4])]
      [("chr", [1]), ("bp", [2]), ("snp", [3]), ("p", [4]), ("dbSNP", [0])]
      [("chr", [1]), ("bp", [2]), ("snp", [3]), ("p", [4]), ("dbSNP", [0]), ("-log10(p)", [5])]
      (buildColumnNameMap ["chr", "bp", "snp", "p"]) rfl rfl (by decide) (by decide)).2
    "chr" (by decide) (by decide)⟩

theorem filter_zip_nodup {β : Type} (keys : List String) (vs : List β) (n : String)
    (hnd : keys.Nodup) (hlen : keys.length = vs.length) (hn : n ∈ keys) :
    ∃ v, (keys.zip vs).filter (fun p => decide (p.1 = n)) = [(n, v)] ∧
      alookup n (keys.zip vs) = some v := by
  induction keys generalizing vs with
  | nil => cases hn
  | cons k ks ih =>
      cases vs with
      | nil => simp at hlen
      | cons v vs' =>
          rw [List.zip_cons_cons, List.filter_cons]
          by_cases hk : k = n
          · subst hk
            have hks : k ∉ ks := (List.nodup_cons.mp hnd).1
            have hrest : (ks.zip vs').filter (fun p => decide (p.1 = k)) = [] := by
              rw [List.filter_eq_nil_iff]
              intro p hp hpk
              obtain ⟨p1, p2⟩ := p
              have h1 : p1 ∈ ks := (List.of_mem_zip hp).1
              have h2 : p1 = k := of_decide_eq_true hpk
              exact hks (h2 ▸ h1)
            refine ⟨v, ?_, ?_⟩
            · rw [if_pos (by simp), hrest]
            · rw [alookup_cons, if_pos rfl]
          · have hn' : n ∈ ks := by
              rcases List.mem_cons.mp hn with h0 | h0
              · exact absurd h0.symm hk
              · exact h0
            obtain ⟨w, hw1, hw2⟩ := ih vs' (List.nodup_cons.mp hnd).2 (by simpa using hlen) hn'
            refine ⟨w, ?_, ?_⟩
            · rw [if_neg (by simp [hk]), hw1]
            · rw [alookup_cons, if_neg hk, hw2]

theorem mapM_select_nodup {α : Type} (renamed : List (String × List α)) (order : List String)
    (h : ∀ n ∈ order, ∃ v, renamed.filter (fun p => decide (p.1 = n)) = [(n, v)] ∧
      alookup n renamed = some v) :
    ∃ sel, (order.mapM (fun n =>
        match renamed.filter (fun p => decide (p.1 = n)) with
        | [] => (Except.error n : Except String (Df α))
        | cols => Except.ok cols) = Except.ok sel) ∧
      headers sel.flatten = order ∧
      ∀ pr ∈ sel.flatten, alookup pr.1 renamed = some pr.2 := by
  induction order with
  | nil => exact ⟨[], rfl, rfl, by simp⟩
  | cons n order' ih =>
      obtain ⟨v, hv, hvl⟩ := h n (List.mem_cons_self n order')
      obtain ⟨sel', hsel', hh', hp'⟩ := ih (fun x hx => h x (List.mem_cons_of_mem n hx))
      refine ⟨[(n, v)] :: sel', ?_, ?_, ?_⟩
      · rw [List.mapM_cons]
        have hstep : (match renamed.filter (fun p => decide (p.1 = n)) with
            | [] => (Except.error n : Except String (Df α))
            | cols => Except.ok cols) = Except.ok [(n, v)] := by
          rw [hv]
        rw [hstep, except_bind_ok, hsel', except_bind_ok]
        rfl
      · rw [show ([(n, v)] :: sel').flatten = (n, v) :: sel'.flatten from rfl,
          show headers ((n, v) :: sel'.flatten) = n :: headers sel'.flatten from rfl, hh']
      · intro pr hpr
        have hpr' : pr ∈ (n, v) :: sel'.flatten := hpr
        rcases List.mem_cons.mp hpr' with rfl | hpr''
        · exact hvl
        · exact hp' pr hpr''

/-- C10 counterexample: pandas selection by a duplicated label returns
every column bearing it.  After renaming both columns of a two-column
table to `"x"`, selecting `["x"]` yields a TWO-column frame with column
sequence `["x","x"]`, not the order list `["x"]` — so for name lists with
duplicates (allowed by the claim's quantifiers) the returned column
sequence is not the order list. -/
theorem edit_df_columns_duplicate_label_cex :
    edit_df_columns ([("a", [1]), ("b", [2])] : Df Nat) ["x", "x"] ["x"] =
      Except.ok [("x", [1]), ("x", [2])] ∧
      headers ([("x", [1]), ("x", [2])] : Df Nat) ≠ ["x"] :=
  ⟨rfl, by decide⟩

/-- C10 (amended): contract of `edit_df_columns` in the reformatter
script, for DUPLICATE-FREE new-name lists: when the new-name list has
exactly as many entries as the table has columns, contains no duplicate
names, and every entry of the order list is drawn from the new names, the
call succeeds, the returned table's column sequence is exactly the order
list (renaming happens before reordering, so the order list refers to the
new names), and each selected column carries, unchanged, the row data
that the renamed table associates to that name.  With a duplicated new
name, label selection returns every column bearing it, so the column
sequence can differ from the order list. -/
theorem edit_df_columns_spec (α : Type) (df : Df α) (column_names column_order : List String)
    (hlen : column_names.length = df.length)
    (hnd : column_names.Nodup)
    (hord : ∀ n ∈ column_order, n ∈ column_names) :
    ∃ res, edit_df_columns df column_names column_order = Except.ok res ∧
      headers res = column_order ∧
      ∀ pr ∈ res, alookup pr.1 (column_names.zip (df.map Prod.snd)) = some pr.2 := by
  have hlen' : column_names.length = (df.map Prod.snd).length := by simpa using hlen
  have hexists : ∀ n ∈ column_order, ∃ v,
      (column_names.zip (df.map Prod.snd)).filter (fun p => decide (p.1 = n)) = [(n, v)] ∧
      alookup n (column_names.zip (df.map Prod.snd)) = some v :=
    fun n hn => filter_zip_nodup column_names (df.map Prod.snd) n hnd hlen' (hord n hn)
  obtain ⟨sel, hsel, hh, hp⟩ :=
    mapM_select_nodup (column_names.zip (df.map Prod.snd)) column_order hexists
  refine ⟨sel.flatten, ?_, hh, hp⟩
  rw [edit_df_columns, if_pos hlen]
  simp only [hsel, except_bind_ok]

/-- Witness for C10's amended theorem on a concrete two-column table with
distinct new names. -/
theorem edit_df_columns_spec_witness :
    ∃ res, edit_df_columns ([("a", [1]), ("b", [2])] : Df Nat) ["x", "y"] ["y", "x"] =
        Except.ok res ∧
      headers res = ["y", "x"] ∧
      ∀ pr ∈ res,
        alookup pr.1 (["x", "y"].zip (([("a", [1]), ("b", [2])] : Df Nat).map Prod.snd)) =
          some pr.2 :=
  edit_df_columns_spec Nat [("a", [1]), ("b", [2])] ["x", "y"] ["y", "x"]
    (by decide) (by decide) (by decide)

